import Mathlib

/-!
# ishinobu2elk: the archive-extraction pipeline of `cmd/functions.go`

A shallow embedding of `readFiles`, `worker` and `processArchive`, together with the
parts of the Go standard library they call (`strings.HasPrefix`, `strings.HasSuffix`,
`filepath.Base`, `filepath.Clean`, `filepath.Join`, on a Unix target), and the
properties of the extraction pipeline settled against that embedding.

Effects are made explicit: the file system is a map from paths to file contents, the
outcome of every fallible system call is an input of the model, and a loop that may not
terminate is run for a bounded number of iterations, the state reached so far being
visible also when the bound is hit before the function has returned.
-/

namespace Ishinobu2elk

/-! ## Go strings and the library functions used by the source -/

/-- A Go string, as the sequence of its bytes; a byte is written as the character with
that code. -/
abbrev GoString := List Char

/-- File contents: a sequence of bytes. -/
abbrev Bytes := List Nat

/-- The path separator of the target (`os.PathSeparator` on Unix). -/
def Separator : Char := '/'

/-- Go `os.IsPathSeparator` on Unix. -/
def IsPathSeparator (c : Char) : Bool := c == Separator

/-- Go `strings.HasPrefix`:
`len(s) >= len(prefix) && s[:len(prefix)] == prefix`. -/
def HasPrefix (s pre : GoString) : Bool :=
  decide (pre.length ≤ s.length) && decide (s.take pre.length = pre)

/-- Go `strings.HasSuffix`:
`len(s) >= len(suffix) && s[len(s)-len(suffix):] == suffix`. -/
def HasSuffix (s suf : GoString) : Bool :=
  decide (suf.length ≤ s.length) && decide (s.drop (s.length - suf.length) = suf)

/-- Go `filepath.Base` (Unix, where the volume name is always empty): the last element
of the path. Trailing separators are removed first; the empty path gives `"."`, a path
of separators only gives `"/"`. -/
def Base (path : GoString) : GoString :=
  if path = [] then ['.']
  else
    -- strip trailing slashes
    let path1 := path.rdropWhile IsPathSeparator
    -- find the last element
    let path2 := path1.rtakeWhile (fun c => !IsPathSeparator c)
    -- if empty now, it had only slashes
    if path2 = [] then [Separator] else path2

/-- The backtracking loop of `filepath.Clean` on a `..` element:
`for out.w > dotdot && !os.IsPathSeparator(out.index(out.w)) { out.w-- }`. -/
def cleanBacktrack (out : GoString) (dotdot : Nat) : Nat → Nat
  | 0 => 0
  | w + 1 =>
    if dotdot < w + 1 ∧ out.get? (w + 1) ≠ some Separator then cleanBacktrack out dotdot w
    else w + 1

/-- The main loop of Go `filepath.Clean`, `for r < n { switch ... }`: `rest` is
`path[r:]`, `out` is the output buffer (`out.w` is its length) and `dotdot` the index
in the buffer where `..` must stop. Every iteration consumes at least one byte of
`rest`, so `rest.length` iterations are enough. -/
def cleanLoop (rooted : Bool) : Nat → GoString → GoString → Nat → GoString
  | 0, _, out, _ => out
  | _ + 1, [], out, _ => out
  | fuel + 1, c :: t, out, dotdot =>
    if IsPathSeparator c then
      -- empty path element
      cleanLoop rooted fuel t out dotdot
    else if c = '.' ∧ (t = [] ∨ (t.head?.map IsPathSeparator) = some true) then
      -- . element
      cleanLoop rooted fuel t out dotdot
    else if c = '.' ∧ t.head? = some '.' ∧
        (t.tail = [] ∨ (t.tail.head?.map IsPathSeparator) = some true) then
      -- .. element: remove to last separator
      if dotdot < out.length then
        -- can backtrack
        cleanLoop rooted fuel t.tail (out.take (cleanBacktrack out dotdot (out.length - 1)))
          dotdot
      else if !rooted then
        -- cannot backtrack, but not rooted, so append .. element
        let out1 := if 0 < out.length then out ++ [Separator] else out
        let out2 := out1 ++ ['.', '.']
        cleanLoop rooted fuel t.tail out2 out2.length
      else
        cleanLoop rooted fuel t.tail out dotdot
    else
      -- real path element: add slash if needed, then copy the element
      let out1 :=
        if (rooted && out.length != 1) || (!rooted && out.length != 0) then
          out ++ [Separator]
        else out
      cleanLoop rooted fuel ((c :: t).dropWhile (fun x => !IsPathSeparator x))
        (out1 ++ (c :: t).takeWhile (fun x => !IsPathSeparator x)) dotdot

/-- Go `filepath.Clean` (Unix): the shortest path equivalent to `path` by purely
lexical processing. -/
def Clean (path : GoString) : GoString :=
  if path = [] then ['.']
  else
    let rooted := (path.head?.map IsPathSeparator) = some true
    let out := cleanLoop rooted path.length (if rooted then path.tail else path)
      (if rooted then [Separator] else []) (if rooted then 1 else 0)
    -- turn empty string into "."
    if out = [] then ['.'] else out

/-- Go `strings.Join(elems, sep)`. -/
def stringsJoin (elems : List GoString) (sep : GoString) : GoString :=
  sep.intercalate elems

/-- Go `filepath.Join` (Unix): the elements from the first non-empty one on are joined
with the separator and the result is cleaned; all elements empty gives `""`. -/
def Join (elem : List GoString) : GoString :=
  match elem.dropWhile (fun e => decide (e = [])) with
  | [] => []
  | rest => Clean (stringsJoin rest [Separator])

/-! ## Configuration constants -/

/-- The staging directory, `OutputDir = "./.resources/elk/json_logs"`. -/
def OutputDir : GoString :=
  ['.', '/', '.', 'r', 'e', 's', 'o', 'u', 'r', 'c', 'e', 's', '/', 'e', 'l', 'k', '/',
   'j', 's', 'o', 'n', '_', 'l', 'o', 'g', 's']

/-- The size of the worker pool, `ConcurrentWorkers = 4`. -/
def ConcurrentWorkers : Nat := 4

/-- The suffix of the structured-log entries, `".json"`. -/
def jsonSuffix : GoString := ['.', 'j', 's', 'o', 'n']

/-- The marker of resource-fork shadow files, `"._"`. -/
def shadowMarker : GoString := ['.', '_']

/-! ## The archive as the tar reader presents it -/

/-- Go `tar.TypeReg`, the type flag of a regular file: the byte `'0'`. -/
def TypeReg : Char := '0'

/-- The fields of `tar.Header` that `processArchive` reads. -/
structure Header where
  Name : GoString
  Typeflag : Char
  deriving DecidableEq

/-- How `io.Copy(outFile, tarReader)` ends for an entry: all bytes copied, or an error
after `written` bytes have reached the output file. -/
inductive CopyResult where
  | ok
  | failed (written : Nat)
  deriving DecidableEq

/-- One entry of the container: its header and bytes, and how the two fallible calls
of the loop body, `os.Create(jsonPath)` and `io.Copy(outFile, tarReader)`, turn out when
the loop reaches it. -/
structure Entry where
  header : Header
  content : Bytes
  createOk : Bool
  copy : CopyResult
  deriving DecidableEq

/-- What `tarReader.Next()` yields once the headers are used up: `io.EOF`, or an error
other than `io.EOF` (unreadable container, I/O fault in the stream). -/
inductive StreamEnd where
  | eof
  | fault
  deriving DecidableEq

/-- The tar reader as a forward-only sequence: the entries still to come and what
follows them. -/
structure TarReader where
  entries : List Entry
  ending : StreamEnd
  deriving DecidableEq

/-- The result of one call of `tarReader.Next()`. -/
inductive NextResult where
  | header (e : Entry)
  | EOF
  | err

/-- Go `(*tar.Reader).Next`: the next header and the advanced reader. At the end of
the sequence the reader is unchanged, so `io.EOF` and an error alike are returned again
by every later call (`tar.Reader` keeps them in its `err` field). -/
def TarReader.Next (tr : TarReader) : NextResult × TarReader :=
  match tr.entries with
  | e :: rest => (NextResult.header e, { tr with entries := rest })
  | [] =>
    match tr.ending with
    | StreamEnd.eof => (NextResult.EOF, tr)
    | StreamEnd.fault => (NextResult.err, tr)

/-- What is found at an archive location: `os.Open` fails, or `gzip.NewReader` fails,
or a tar reader over the decompressed stream is obtained. -/
inductive ArchiveFile where
  | openFails
  | gzipFails
  | tar (tr : TarReader)
  deriving DecidableEq

/-- The errors `processArchive` returns: `"failed to open archive"` and
`"failed to create gzip reader"`. -/
inductive ArchiveError where
  | openArchive
  | gzipReader
  deriving DecidableEq

/-! ## The file system -/

/-- The regular files of the file system: path to contents. -/
abbrev FS := GoString → Option Bytes

/-- A successful `os.Create(path)`: the file exists and is empty (an existing file is
truncated). -/
def FS.Create (fs : FS) (path : GoString) : FS :=
  fun p => if p = path then some [] else fs p

/-- Writing `data` at the end of the file at `path`. -/
def FS.Write (fs : FS) (path : GoString) (data : Bytes) : FS :=
  fun p => if p = path then some ((fs p).getD [] ++ data) else fs p

/-! ## `processArchive` -/

/-- The state of a call of `processArchive` after a bounded number of iterations of
its entry loop: the file system, the paths on which `os.Create` has succeeded during
the call (in order), and the return value, `none` while the call has not returned. -/
structure Run where
  files : FS
  created : List GoString
  returned : Option (Option ArchiveError)

/-- The entry loop of `processArchive` (`for { header, err := tarReader.Next() ... }`),
run for at most `fuel` iterations. -/
def extractLoop : Nat → TarReader → FS → List GoString → Run
  | 0, _, fs, created => ⟨fs, created, none⟩
  | fuel + 1, tr, fs, created =>
    match tr.Next with
    | (NextResult.EOF, _) =>
      -- end of archive: break, return nil
      ⟨fs, created, some none⟩
    | (NextResult.err, tr1) =>
      -- "Error reading tar archive": continue
      extractLoop fuel tr1 fs created
    | (NextResult.header e, tr1) =>
      -- skip files starting with ._
      let baseName := Base e.header.Name
      if HasPrefix baseName shadowMarker then extractLoop fuel tr1 fs created
      -- only process regular files with .json extension
      else if e.header.Typeflag ≠ TypeReg || !HasSuffix e.header.Name jsonSuffix then
        extractLoop fuel tr1 fs created
      else
        let jsonPath := Join [OutputDir, baseName]
        if !e.createOk then
          -- "Error creating JSON file": continue
          extractLoop fuel tr1 fs created
        else
          let fs1 := fs.Create jsonPath
          match e.copy with
          | CopyResult.failed k =>
            -- "Error extracting JSON file": continue
            extractLoop fuel tr1 (fs1.Write jsonPath (e.content.take k)) (created ++ [jsonPath])
          | CopyResult.ok =>
            extractLoop fuel tr1 (fs1.Write jsonPath e.content) (created ++ [jsonPath])

/-- The function `processArchive(archivePath)`, its entry loop run for at most `fuel`
iterations; `world` tells what is found at each archive location. -/
def processArchive (fuel : Nat) (world : GoString → ArchiveFile) (archivePath : GoString)
    (fs : FS) : Run :=
  match world archivePath with
  | ArchiveFile.openFails => ⟨fs, [], some (some ArchiveError.openArchive)⟩
  | ArchiveFile.gzipFails => ⟨fs, [], some (some ArchiveError.gzipReader)⟩
  | ArchiveFile.tar tr => extractLoop fuel tr fs []

/-! ## `worker` -/

/-- The state of a worker: the file system, the archive locations it has passed to
`processArchive` (in order), and whether it has left its loop. -/
structure WorkerRun where
  files : FS
  invoked : List GoString
  exited : Bool

/-- The function `worker`, `for archive := range archives { ... }`, on the sequence of
items the channel delivers to it; every call of `processArchive` is run for at most
`fuel` iterations of its loop, and a call that has not returned by then leaves the
worker inside it. -/
def worker (fuel : Nat) (world : GoString → ArchiveFile) : List GoString → FS → WorkerRun
  | [], fs => ⟨fs, [], true⟩
  | archive :: rest, fs =>
    let r := processArchive fuel world archive fs
    match r.returned with
    | none => ⟨r.files, [archive], false⟩
    | some (some _) =>
      -- "Error processing archive": continue
      let w := worker fuel world rest r.files
      ⟨w.files, archive :: w.invoked, w.exited⟩
    | some none =>
      -- "Successfully processed archive"
      let w := worker fuel world rest r.files
      ⟨w.files, archive :: w.invoked, w.exited⟩

/-! ## `readFiles`, up to the start of the worker pool -/

/-- The fatal errors of `readFiles` (`log.Fatal`, `log.Fatalf`). -/
inductive Fatal where
  | logFile
  | invalidInput
  | mkdir
  | glob
  deriving DecidableEq

/-- The input and output operations of `readFiles`. -/
inductive Event where
  | stderrLog
  | openLogFile
  | fileLog
  | mkdirAll (path : GoString)
  | globPattern (pattern : GoString)
  deriving DecidableEq

/-- The outcomes of the system calls of `readFiles`. -/
structure Env where
  openLogFileOk : Bool
  mkdirAllOk : Bool
  glob : GoString → Option (List GoString)

/-- How the sequential part of `readFiles` ends: in a fatal error, by returning
because no archive was found, or by starting the worker pool on a work list. -/
inductive Outcome where
  | fatal (f : Fatal)
  | noArchives
  | pool (archives : List GoString)
  deriving DecidableEq

/-- The operations performed by `readFiles` and how it ended. -/
structure ReadFilesRun where
  events : List Event
  outcome : Outcome

/-- The pattern `"*.tar.gz"`. -/
def tarGzPattern : GoString := ['*', '.', 't', 'a', 'r', '.', 'g', 'z']

/-- The function `readFiles(dir, file)` up to the point where the worker pool is set
up. -/
def readFiles (env : Env) (dir file : GoString) : ReadFilesRun :=
  -- log.Printf("dir: %d file:%d", ...), on the default logger
  let ev0 := [Event.stderrLog]
  -- initialize logger
  let ev1 := ev0 ++ [Event.openLogFile]
  if !env.openLogFileOk then ⟨ev1 ++ [Event.stderrLog], Outcome.fatal Fatal.logFile⟩
  else
    -- log.Println("Copying JSON files...")
    let ev2 := ev1 ++ [Event.fileLog]
    if (dir = [] ∧ file = []) ∨ (dir ≠ [] ∧ file ≠ []) then
      ⟨ev2 ++ [Event.fileLog], Outcome.fatal Fatal.invalidInput⟩
    else
      -- ensure processed directories exist
      let ev3 := ev2 ++ [Event.mkdirAll OutputDir]
      if !env.mkdirAllOk then ⟨ev3 ++ [Event.fileLog], Outcome.fatal Fatal.mkdir⟩
      else if dir ≠ [] then
        -- find all tar.gz files in the directory
        let pattern := Join [dir, tarGzPattern]
        let ev4 := ev3 ++ [Event.globPattern pattern]
        match env.glob pattern with
        | none => ⟨ev4 ++ [Event.fileLog], Outcome.fatal Fatal.glob⟩
        | some archives =>
          if archives.length = 0 then ⟨ev4 ++ [Event.fileLog], Outcome.noArchives⟩
          else ⟨ev4 ++ [Event.fileLog], Outcome.pool archives⟩
      else if file ≠ [] then ⟨ev3, Outcome.pool ([] ++ [file])⟩
      else ⟨ev3, Outcome.pool []⟩

/-! ## Notions used in the statements -/

/-- An entry header is accepted: regular file, name ending in `.json`, base name not
starting with `._`. -/
def accepted (h : Header) : Bool :=
  decide (h.Typeflag = TypeReg) && HasSuffix h.Name jsonSuffix &&
    !HasPrefix (Base h.Name) shadowMarker

/-- The path of the staging file of an entry, `filepath.Join(OutputDir, baseName)`. -/
def stagingPath (h : Header) : GoString := Join [OutputDir, Base h.Name]

/-- The cleaned staging directory, `.resources/elk/json_logs`. -/
def stagingDir : GoString :=
  ['.', 'r', 'e', 's', 'o', 'u', 'r', 'c', 'e', 's', '/', 'e', 'l', 'k', '/',
   'j', 's', 'o', 'n', '_', 'l', 'o', 'g', 's']

/-- The bytes of an entry that reach its output file. -/
def copied (e : Entry) : Bytes :=
  match e.copy with
  | CopyResult.ok => e.content
  | CopyResult.failed k => e.content.take k

/-- The effect of one iteration of the entry loop on the file system and on the list
of created paths. -/
def stepEntry (s : FS × List GoString) (e : Entry) : FS × List GoString :=
  if accepted e.header && e.createOk then
    (fun p => if p = stagingPath e.header then some (copied e) else s.1 p,
      s.2 ++ [stagingPath e.header])
  else s

/-- The last accepted entry of `es`, in container order, with base name `b`. -/
def lastAccepted (es : List Entry) (b : GoString) : Option Entry :=
  (es.filter (fun x => accepted x.header && decide (Base x.header.Name = b))).getLast?

/-- The file system with no file. -/
def emptyFS : FS := fun _ => none

/-- A file system whose staging directory already holds `b.txt` with bytes 1, 2, 3. -/
def stagedFS : FS := fun p =>
  if p = stagingDir ++ Separator :: ['b', '.', 't', 'x', 't'] then some [1, 2, 3] else none

/-- A regular-file entry whose output file is created and whose bytes are copied. -/
def regularEntry (name : GoString) (content : Bytes) : Entry :=
  ⟨⟨name, TypeReg⟩, content, true, CopyResult.ok⟩

/-- The bytes of `{"x":1}`. -/
def bytesX1 : Bytes := [123, 34, 120, 34, 58, 49, 125]

/-- The bytes of `{"x":2}`. -/
def bytesX2 : Bytes := [123, 34, 120, 34, 58, 50, 125]

/-- Archive A: `a.json` with content `{"x":1}`, then `b.txt` and `._c.json`. -/
def archiveA : TarReader :=
  ⟨[regularEntry ['a', '.', 'j', 's', 'o', 'n'] bytesX1,
    regularEntry ['b', '.', 't', 'x', 't'] [104, 105],
    regularEntry ['.', '_', 'c', '.', 'j', 's', 'o', 'n'] [0, 5, 22, 7]], StreamEnd.eof⟩

/-- Archive C: `x/a.json` with content `{"x":1}`, a directory entry `y/`, then
`/../y/a.json` with content `{"x":2}`. -/
def archiveC : TarReader :=
  ⟨[regularEntry ['x', '/', 'a', '.', 'j', 's', 'o', 'n'] bytesX1,
    ⟨⟨['y', '/'], '5'⟩, [], true, CopyResult.ok⟩,
    regularEntry ['/', '.', '.', '/', 'y', '/', 'a', '.', 'j', 's', 'o', 'n'] bytesX2],
   StreamEnd.eof⟩

/-- The location `A.tar.gz`. -/
def pathA : GoString := ['A', '.', 't', 'a', 'r', '.', 'g', 'z']

/-- The location `B.tar.gz`. -/
def pathB : GoString := ['B', '.', 't', 'a', 'r', '.', 'g', 'z']

/-- The location `C.tar.gz`. -/
def pathC : GoString := ['C', '.', 't', 'a', 'r', '.', 'g', 'z']

/-- A batch directory: archive A at `A.tar.gz`, a file that is not gzip data at
`B.tar.gz`, archive C at `C.tar.gz`, and nothing that can be opened elsewhere. -/
def batchWorld : GoString → ArchiveFile := fun p =>
  if p = pathA then ArchiveFile.tar archiveA
  else if p = pathB then ArchiveFile.gzipFails
  else if p = pathC then ArchiveFile.tar archiveC
  else ArchiveFile.openFails

/-- An archive whose only entry is `a.json`, at a moment when `os.Create` fails on its
staging path (the staging directory is missing or not writable). -/
def archiveBlocked : TarReader :=
  ⟨[⟨⟨['a', '.', 'j', 's', 'o', 'n'], TypeReg⟩, bytesX1, false, CopyResult.ok⟩],
   StreamEnd.eof⟩

/-- The world with `archiveBlocked` at every location. -/
def blockedWorld : GoString → ArchiveFile := fun _ => ArchiveFile.tar archiveBlocked

/-- The location `G.tar.gz`. -/
def pathG : GoString := ['G', '.', 't', 'a', 'r', '.', 'g', 'z']

/-- The location `T.tar.gz`. -/
def pathT : GoString := ['T', '.', 't', 'a', 'r', '.', 'g', 'z']

/-- Gzip data that is not a tar stream: the first call of `tarReader.Next()` fails with
an error other than `io.EOF`. -/
def archiveGarbage : TarReader := ⟨[], StreamEnd.fault⟩

/-- A tar stream cut off inside the data of its first entry `a.json`: the copy fails
after three bytes and the reader then yields the read error. -/
def archiveTruncated : TarReader :=
  ⟨[⟨⟨['a', '.', 'j', 's', 'o', 'n'], TypeReg⟩, bytesX1, true, CopyResult.failed 3⟩],
   StreamEnd.fault⟩

/-- A batch directory with a damaged archive: `archiveGarbage` at `G.tar.gz`,
`archiveTruncated` at `T.tar.gz`, archive A at `A.tar.gz`, nothing elsewhere. -/
def damagedWorld : GoString → ArchiveFile := fun p =>
  if p = pathG then ArchiveFile.tar archiveGarbage
  else if p = pathT then ArchiveFile.tar archiveTruncated
  else if p = pathA then ArchiveFile.tar archiveA
  else ArchiveFile.openFails

/-- The last entry of `es` whose iteration writes the file at path `p`: accepted, its
output file created, and `p` its staging path. -/
def lastWrite (es : List Entry) (p : GoString) : Option Entry :=
  (es.filter (fun e => accepted e.header && e.createOk &&
    decide (stagingPath e.header = p))).getLast?

/-! ## The library functions on the paths the program builds -/

theorem cleanLoop_nil (rooted : Bool) (fuel : Nat) (out : GoString) (dotdot : Nat) :
    cleanLoop rooted fuel [] out dotdot = out := by
  cases fuel <;> rfl

theorem takeWhile_notSep_of_not_mem (b : GoString) (h : Separator ∉ b) :
    b.takeWhile (fun x => !IsPathSeparator x) = b := by
  rw [List.takeWhile_eq_self_iff]
  intro x hx
  have : x ≠ Separator := fun e => h (e ▸ hx)
  simpa [IsPathSeparator] using this

theorem dropWhile_notSep_of_not_mem (b : GoString) (h : Separator ∉ b) :
    b.dropWhile (fun x => !IsPathSeparator x) = [] := by
  rw [List.dropWhile_eq_nil_iff]
  intro x hx
  have : x ≠ Separator := fun e => h (e ▸ hx)
  simpa [IsPathSeparator] using this

/-- The loop of `Clean` on a last path element that is neither `.` nor `..`: the
element is appended to the buffer, after a separator when the buffer is not empty. -/
theorem cleanLoop_element (fuel : Nat) (b out : GoString) (dotdot : Nat)
    (hne : b ≠ []) (hsep : Separator ∉ b) (hdot : b ≠ ['.']) (hdd : b ≠ ['.', '.']) :
    cleanLoop false (fuel + 1) b out dotdot
      = (if out.length ≠ 0 then out ++ [Separator] else out) ++ b := by
  obtain ⟨c, t, rfl⟩ := List.exists_cons_of_ne_nil hne
  have hc : c ≠ Separator := fun e => hsep (by simp [e])
  have ht : Separator ∉ t := fun e => hsep (by simp [e])
  rw [cleanLoop]
  have h1 : IsPathSeparator c = false := by simpa [IsPathSeparator] using hc
  have h2 : ¬ (c = '.' ∧ (t = [] ∨ (t.head?.map IsPathSeparator) = some true)) := by
    rintro ⟨rfl, h | h⟩
    · exact hdot (by simp [h])
    · cases t with
      | nil => simp at h
      | cons y t =>
        simp [IsPathSeparator] at h
        exact ht (by simp [h])
  have h3 : ¬ (c = '.' ∧ t.head? = some '.' ∧
        (t.tail = [] ∨ (t.tail.head?.map IsPathSeparator) = some true)) := by
    rintro ⟨rfl, h, h' | h'⟩
    · cases t with
      | nil => simp at h
      | cons y t =>
        simp at h h'
        exact hdd (by simp [h, h'])
    · cases t with
      | nil => simp at h
      | cons y t =>
        cases t with
        | nil => simp at h'
        | cons z t =>
          simp [IsPathSeparator] at h'
          exact ht (by simp [h'])
  rw [if_neg (by simp [h1]), if_neg h2, if_neg h3]
  rw [takeWhile_notSep_of_not_mem _ hsep, dropWhile_notSep_of_not_mem _ hsep, cleanLoop_nil]
  simp

theorem clean_outputDir : Clean OutputDir = stagingDir := by decide

/-- Joining the staging directory with a single proper path element puts the element
directly under the cleaned staging directory. -/
theorem join_outputDir (b : GoString)
    (hne : b ≠ []) (hsep : Separator ∉ b) (hdot : b ≠ ['.']) (hdd : b ≠ ['.', '.']) :
    Join [OutputDir, b] = stagingDir ++ Separator :: b := by
  have hcl := cleanLoop_element (b.length + 18) b stagingDir 0 hne hsep hdot hdd
  have hj : Join [OutputDir, b] = Clean (OutputDir ++ Separator :: b) := by
    simp [Join, OutputDir, stringsJoin, List.intercalate, List.intersperse]
  have hlen : (OutputDir ++ Separator :: b).length = b.length + 27 := by
    simp [OutputDir]
  rw [hj]
  unfold Clean
  rw [hlen]
  simp only [OutputDir, Separator, List.cons_append, List.nil_append, List.head?_cons,
    Option.map_some', IsPathSeparator]
  simp only [stagingDir, Separator] at hcl
  simp [cleanLoop, IsPathSeparator, Separator, hcl, stagingDir]

/-- The base name of a name ending in `.json` ends in `.json` itself and has no
separator. -/
theorem base_of_hasSuffix_json (name : GoString) (h : HasSuffix name jsonSuffix = true) :
    ∃ x, Base name = x ++ jsonSuffix ∧ Separator ∉ x := by
  simp only [HasSuffix, jsonSuffix, Bool.and_eq_true, decide_eq_true_eq] at h
  obtain ⟨_, hd⟩ := h
  have hname : name = name.take (name.length - 5) ++ ['.', 'j', 's', 'o', 'n'] := by
    conv_lhs => rw [← List.take_append_drop (name.length - 5) name]
    simp only [List.length_cons, List.length_nil] at hd
    rw [hd]
  generalize name.take (name.length - 5) = pre at hname
  subst hname
  refine ⟨pre.rtakeWhile (fun c => !IsPathSeparator c), ?_, ?_⟩
  · unfold Base
    simp [List.rdropWhile, List.rtakeWhile, IsPathSeparator, Separator, jsonSuffix,
      List.takeWhile_append]
  · intro hmem
    have := List.mem_rtakeWhile_imp hmem
    simp [IsPathSeparator] at this

/-- The base name of an accepted header is a single proper path element. -/
theorem base_proper (h : Header) (hacc : accepted h = true) :
    Base h.Name ≠ [] ∧ Separator ∉ Base h.Name ∧ Base h.Name ≠ ['.'] ∧
      Base h.Name ≠ ['.', '.'] := by
  simp only [accepted, Bool.and_eq_true] at hacc
  obtain ⟨x, hx, hsep⟩ := base_of_hasSuffix_json h.Name hacc.1.2
  rw [hx]
  refine ⟨by simp [jsonSuffix], ?_, ?_, ?_⟩
  · simp [jsonSuffix, Separator] at hsep ⊢
    exact hsep
  · intro e
    have := congrArg List.length e
    simp [jsonSuffix] at this
  · intro e
    have := congrArg List.length e
    simp [jsonSuffix] at this

/-- The staging path of an accepted header is its base name directly under the staging
directory. -/
theorem stagingPath_eq (h : Header) (hacc : accepted h = true) :
    stagingPath h = stagingDir ++ Separator :: Base h.Name := by
  obtain ⟨h1, h2, h3, h4⟩ := base_proper h hacc
  exact join_outputDir _ h1 h2 h3 h4

/-- Accepted headers have the same staging path exactly when they have the same base
name. -/
theorem stagingPath_inj (h1 h2 : Header) (a1 : accepted h1 = true) (a2 : accepted h2 = true) :
    stagingPath h1 = stagingPath h2 ↔ Base h1.Name = Base h2.Name := by
  rw [stagingPath_eq h1 a1, stagingPath_eq h2 a2]
  constructor
  · intro e
    simpa using e
  · intro e
    rw [e]

/-! ## The entry loop as a fold over the entries -/

theorem create_write (fs : FS) (p : GoString) (data : Bytes) :
    (fs.Create p).Write p data = fun q => if q = p then some data else fs q := by
  funext q
  by_cases hq : q = p <;> simp [FS.Create, FS.Write, hq]

/-- One iteration of the entry loop on a header. -/
theorem extractLoop_cons (fuel : Nat) (e : Entry) (es : List Entry) (en : StreamEnd)
    (fs : FS) (cr : List GoString) :
    extractLoop (fuel + 1) ⟨e :: es, en⟩ fs cr
      = extractLoop fuel ⟨es, en⟩ (stepEntry (fs, cr) e).1 (stepEntry (fs, cr) e).2 := by
  rw [extractLoop]
  simp only [TarReader.Next]
  by_cases hp : HasPrefix (Base e.header.Name) shadowMarker = true
  · simp [stepEntry, accepted, hp]
  · by_cases ht : e.header.Typeflag = TypeReg
    · by_cases hs : HasSuffix e.header.Name jsonSuffix = true
      · by_cases hc : e.createOk = true
        · cases hcp : e.copy <;>
            simp [stepEntry, accepted, hp, ht, hs, hc, hcp, copied, create_write, stagingPath]
        · simp [stepEntry, accepted, hp, ht, hs, hc]
      · simp [stepEntry, accepted, hp, ht, hs]
    · simp [stepEntry, accepted, hp, ht]

/-- The loop on a stream that ends in `io.EOF`: it returns nil once the fuel exceeds
the number of entries, having performed the step of every entry. -/
theorem extractLoop_eof (k : Nat) (es : List Entry) (fs : FS) (cr : List GoString) :
    extractLoop (es.length + 1 + k) ⟨es, StreamEnd.eof⟩ fs cr
      = ⟨(es.foldl stepEntry (fs, cr)).1, (es.foldl stepEntry (fs, cr)).2, some none⟩ := by
  induction es generalizing fs cr with
  | nil =>
    have : ([] : List Entry).length + 1 + k = k + 1 := by simp; omega
    rw [this, extractLoop]
    simp [TarReader.Next]
  | cons e es ih =>
    have : (e :: es).length + 1 + k = (es.length + 1 + k) + 1 := by simp; omega
    rw [this, extractLoop_cons, ih]
    simp

/-- The loop has not returned while the fuel does not exceed the number of entries. -/
theorem extractLoop_short (fuel : Nat) (es : List Entry) (en : StreamEnd) (fs : FS)
    (cr : List GoString) (h : fuel ≤ es.length) :
    (extractLoop fuel ⟨es, en⟩ fs cr).returned = none := by
  induction fuel generalizing es fs cr with
  | zero => simp [extractLoop]
  | succ n ih =>
    cases es with
    | nil => simp at h
    | cons e es =>
      rw [extractLoop_cons]
      exact ih es _ _ (by simpa using h)

/-- The loop on a stream that ends in an error other than `io.EOF` never returns. -/
theorem extractLoop_fault (fuel : Nat) (es : List Entry) (fs : FS) (cr : List GoString) :
    (extractLoop fuel ⟨es, StreamEnd.fault⟩ fs cr).returned = none := by
  induction fuel generalizing es fs cr with
  | zero => simp [extractLoop]
  | succ n ih =>
    cases es with
    | nil =>
      rw [extractLoop]
      simp only [TarReader.Next]
      exact ih [] fs cr
    | cons e es =>
      rw [extractLoop_cons]
      exact ih es _ _

/-- Whenever the loop has returned, the stream ends in `io.EOF`, the value returned is
nil and the step of every entry has been performed. -/
theorem extractLoop_returned (fuel : Nat) (tr : TarReader) (fs : FS) (cr : List GoString)
    (h : (extractLoop fuel tr fs cr).returned ≠ none) :
    tr.ending = StreamEnd.eof ∧
      extractLoop fuel tr fs cr
        = ⟨(tr.entries.foldl stepEntry (fs, cr)).1, (tr.entries.foldl stepEntry (fs, cr)).2,
            some none⟩ := by
  obtain ⟨es, en⟩ := tr
  cases en with
  | fault => exact absurd (extractLoop_fault fuel es fs cr) h
  | eof =>
    refine ⟨rfl, ?_⟩
    by_cases hle : fuel ≤ es.length
    · exact absurd (extractLoop_short fuel es _ fs cr hle) h
    · obtain ⟨k, hk⟩ : ∃ k, fuel = es.length + 1 + k := ⟨fuel - es.length - 1, by omega⟩
      rw [hk]
      exact extractLoop_eof k es fs cr

/-- The state of the loop after at most `fuel` iterations is the fold of the entry step
over the first `fuel` entries. -/
theorem extractLoop_state (fuel : Nat) (es : List Entry) (en : StreamEnd) (fs : FS)
    (cr : List GoString) :
    ((extractLoop fuel ⟨es, en⟩ fs cr).files, (extractLoop fuel ⟨es, en⟩ fs cr).created)
      = (es.take fuel).foldl stepEntry (fs, cr) := by
  induction fuel generalizing es fs cr with
  | zero => simp [extractLoop]
  | succ n ih =>
    cases es with
    | nil =>
      cases en with
      | eof => simp [extractLoop, TarReader.Next]
      | fault =>
        rw [extractLoop]
        simp only [TarReader.Next]
        simpa using ih [] fs cr
    | cons e es =>
      rw [extractLoop_cons, ih]
      simp

theorem lastWrite_cons (e : Entry) (es : List Entry) (p : GoString) :
    lastWrite (e :: es) p
      = if (accepted e.header && e.createOk && decide (stagingPath e.header = p)) = true
        then some ((lastWrite es p).getD e) else lastWrite es p := by
  unfold lastWrite
  by_cases h : (accepted e.header && e.createOk && decide (stagingPath e.header = p)) = true
  · rw [List.filter_cons, if_pos h, if_pos h, List.getLast?_cons]
  · rw [List.filter_cons, if_neg h, if_neg h]

/-- The file system after the steps of `es`: a path holds what the last entry writing
it has copied, and is untouched when no entry writes it. -/
theorem foldl_stepEntry_files (es : List Entry) (s : FS × List GoString) (p : GoString) :
    (es.foldl stepEntry s).1 p
      = match lastWrite es p with
        | some e => some (copied e)
        | none => s.1 p := by
  induction es generalizing s with
  | nil => simp [lastWrite]
  | cons e es ih =>
    rw [List.foldl_cons, ih, lastWrite_cons]
    by_cases h : (accepted e.header && e.createOk && decide (stagingPath e.header = p)) = true
    · rw [if_pos h]
      cases hl : lastWrite es p with
      | some x => simp
      | none =>
        simp only [Bool.and_eq_true, decide_eq_true_eq] at h
        simp [stepEntry, h.1.1, h.1.2, h.2]
    · rw [if_neg h]
      cases hl : lastWrite es p with
      | some x => simp
      | none =>
        simp only [Bool.and_eq_true, decide_eq_true_eq, not_and] at h
        simp only [stepEntry]
        split
        · rename_i hc
          simp only [Bool.and_eq_true] at hc
          have hne : ¬ stagingPath e.header = p := h hc
          have hne2 : ¬ p = stagingPath e.header := fun x => hne x.symm
          simp [hne2]
        · rfl

/-- The created paths after the steps of `es`: the staging paths of the accepted
entries whose output file was created, in order. -/
theorem foldl_stepEntry_created (es : List Entry) (s : FS × List GoString) :
    (es.foldl stepEntry s).2
      = s.2 ++ (es.filter (fun e => accepted e.header && e.createOk)).map
          (fun e => stagingPath e.header) := by
  induction es generalizing s with
  | nil => simp
  | cons e es ih =>
    rw [List.foldl_cons, ih]
    by_cases h : (accepted e.header && e.createOk) = true
    · rw [List.filter_cons, if_pos h]
      simp [stepEntry, h]
    · rw [List.filter_cons, if_neg h]
      simp [stepEntry, h]

/-! ## `processArchive` on an archive that opens -/

theorem processArchive_tar (fuel : Nat) (world : GoString → ArchiveFile)
    (archivePath : GoString) (tr : TarReader) (fs : FS)
    (hopen : world archivePath = ArchiveFile.tar tr) :
    processArchive fuel world archivePath fs = extractLoop fuel tr fs [] := by
  simp [processArchive, hopen]

/-- When every accepted entry has its file created, the last entry writing the staging
path of an accepted header is the last accepted entry with the same base name. -/
theorem lastWrite_eq_lastAccepted (es : List Entry) (h : Header) (hacc : accepted h = true)
    (hok : ∀ e ∈ es, accepted e.header = true → e.createOk = true) :
    lastWrite es (stagingPath h) = lastAccepted es (Base h.Name) := by
  unfold lastWrite lastAccepted
  congr 1
  apply List.filter_congr
  intro x hx
  by_cases hax : accepted x.header = true
  · have hcx := hok x hx hax
    have := stagingPath_inj x.header h hax hacc
    simp [hax, hcx, this]
  · simp [hax]

theorem lastAccepted_mem (es : List Entry) (b : GoString) (l : Entry)
    (h : lastAccepted es b = some l) :
    l ∈ es ∧ accepted l.header = true ∧ Base l.header.Name = b := by
  unfold lastAccepted at h
  have hm := List.mem_of_getLast?_eq_some h
  rw [List.mem_filter] at hm
  simp only [Bool.and_eq_true, decide_eq_true_eq] at hm
  exact ⟨hm.1, hm.2.1, hm.2.2⟩

theorem lastAccepted_split (pre post : List Entry) (e : Entry) (hacc : accepted e.header = true) :
    ∃ l, lastAccepted (pre ++ e :: post) (Base e.header.Name) = some l ∧
      ((∀ x ∈ post, accepted x.header = true → Base x.header.Name ≠ Base e.header.Name) →
        l = e) := by
  unfold lastAccepted
  rw [List.filter_append, List.filter_cons, if_pos (by simp [hacc])]
  rw [List.getLast?_append_cons, List.getLast?_cons]
  refine ⟨_, rfl, ?_⟩
  intro hpost
  have : post.filter (fun x => accepted x.header &&
      decide (Base x.header.Name = Base e.header.Name)) = [] := by
    rw [List.filter_eq_nil_iff]
    intro x hx
    by_cases hax : accepted x.header = true
    · simp [hax, hpost x hx hax]
    · simp [hax]
  rw [this]
  simp

/-! ## The claims on `processArchive` -/

/-- C1. For an archive that opens and decompresses, when the output file of every
accepted entry is created and its bytes are copied: processArchive returns nil when the
entry sequence reaches the end of the archive, and whenever it has returned, the staging
path `filepath.Join(OutputDir, filepath.Base(name))` of every accepted entry holds the
content of the last accepted entry, in container order, with that base name; when no
later accepted entry shares the base name these are the bytes of the entry itself. -/
theorem accepted_entries_are_staged (world : GoString → ArchiveFile)
    (archivePath : GoString) (tr : TarReader) (fs : FS)
    (hopen : world archivePath = ArchiveFile.tar tr)
    (hok : ∀ e ∈ tr.entries, accepted e.header = true →
      e.createOk = true ∧ e.copy = CopyResult.ok) :
    (tr.ending = StreamEnd.eof →
      (processArchive (tr.entries.length + 1) world archivePath fs).returned = some none) ∧
    ∀ fuel, (processArchive fuel world archivePath fs).returned ≠ none →
      ∀ pre e post, tr.entries = pre ++ e :: post → accepted e.header = true →
        (∃ l, lastAccepted tr.entries (Base e.header.Name) = some l ∧
          (processArchive fuel world archivePath fs).files
              (Join [OutputDir, Base e.header.Name]) = some l.content) ∧
        ((∀ x ∈ post, accepted x.header = true →
            Base x.header.Name ≠ Base e.header.Name) →
          (processArchive fuel world archivePath fs).files
              (Join [OutputDir, Base e.header.Name]) = some e.content) := by
  constructor
  · intro hend
    rw [processArchive_tar _ _ _ _ _ hopen]
    obtain ⟨es, en⟩ := tr
    simp only at hend
    subst hend
    have := extractLoop_eof 0 es fs []
    simp only [Nat.add_zero] at this
    rw [this]
  · intro fuel hret pre e post hsplit hacc
    rw [processArchive_tar _ _ _ _ _ hopen] at hret ⊢
    obtain ⟨_, hrun⟩ := extractLoop_returned fuel tr fs [] hret
    have hfile : (extractLoop fuel tr fs []).files (Join [OutputDir, Base e.header.Name])
        = match lastAccepted tr.entries (Base e.header.Name) with
          | some x => some (copied x)
          | none => fs (Join [OutputDir, Base e.header.Name]) := by
      rw [hrun]
      have := foldl_stepEntry_files tr.entries (fs, []) (stagingPath e.header)
      rw [lastWrite_eq_lastAccepted tr.entries e.header hacc
        (fun x hx hax => (hok x hx hax).1)] at this
      exact this
    obtain ⟨l, hl, hself⟩ := lastAccepted_split pre post e hacc
    rw [← hsplit] at hl
    have hlm := lastAccepted_mem _ _ _ hl
    have hcopy : copied l = l.content := by
      simp [copied, (hok l hlm.1 hlm.2.1).2]
    rw [hl] at hfile
    simp only [hcopy] at hfile
    refine ⟨⟨l, hl, hfile⟩, ?_⟩
    intro hpost
    rw [hfile, hself hpost]

/-- C1 on archive A of the batch: `a.json` holds `{"x":1}` after the call. -/
theorem accepted_entries_are_staged_witness :
    (processArchive 4 batchWorld pathA emptyFS).files
        (Join [OutputDir, Base ['a', '.', 'j', 's', 'o', 'n']]) = some bytesX1 :=
  ((accepted_entries_are_staged batchWorld pathA archiveA emptyFS (by decide)
      (by decide)).2 4 (by decide) []
      (regularEntry ['a', '.', 'j', 's', 'o', 'n'] bytesX1)
      [regularEntry ['b', '.', 't', 'x', 't'] [104, 105],
        regularEntry ['.', '_', 'c', '.', 'j', 's', 'o', 'n'] [0, 5, 22, 7]]
      (by decide) (by decide)).2 (by decide)

theorem processArchive_state (fuel : Nat) (world : GoString → ArchiveFile)
    (archivePath : GoString) (tr : TarReader) (fs : FS)
    (hopen : world archivePath = ArchiveFile.tar tr) :
    (processArchive fuel world archivePath fs).files
        = ((tr.entries.take fuel).foldl stepEntry (fs, [])).1 ∧
      (processArchive fuel world archivePath fs).created
        = ((tr.entries.take fuel).foldl stepEntry (fs, [])).2 := by
  rw [processArchive_tar _ _ _ _ _ hopen]
  have := extractLoop_state fuel tr.entries tr.ending fs []
  rw [← this]
  exact ⟨rfl, rfl⟩

/-- An accepted entry whose output file is created has its staging path among the
created paths of the steps of a list that contains it, and conversely. -/
theorem mem_created_iff (es : List Entry) (fs : FS) (p : GoString) :
    p ∈ (es.foldl stepEntry (fs, [])).2 ↔
      ∃ e ∈ es, accepted e.header = true ∧ e.createOk = true ∧ stagingPath e.header = p := by
  rw [foldl_stepEntry_created]
  simp only [List.nil_append, List.mem_map, List.mem_filter, Bool.and_eq_true]
  constructor
  · rintro ⟨e, ⟨he, ha, hc⟩, hp⟩
    exact ⟨e, he, ha, hc, hp⟩
  · rintro ⟨e, he, ha, hc, hp⟩
    exact ⟨e, ⟨he, ha, hc⟩, hp⟩

theorem files_eq_of_not_created (es : List Entry) (fs : FS) (p : GoString)
    (hp : p ∉ (es.foldl stepEntry (fs, [])).2) :
    (es.foldl stepEntry (fs, [])).1 p = fs p := by
  rw [foldl_stepEntry_files]
  cases hl : lastWrite es p with
  | none => rfl
  | some e =>
    exfalso
    apply hp
    unfold lastWrite at hl
    have hm := List.mem_of_getLast?_eq_some hl
    rw [List.mem_filter] at hm
    simp only [Bool.and_eq_true, decide_eq_true_eq] at hm
    exact (mem_created_iff es fs p).2 ⟨e, hm.1, hm.2.1.1, hm.2.1.2, hm.2.2⟩

/-- Every path a call of processArchive has created, at any moment, is the staging path
of an accepted entry of the archive whose output file was created. -/
theorem created_mem_accepted (world : GoString → ArchiveFile) (archivePath : GoString)
    (fs : FS) (fuel : Nat) (p : GoString)
    (hp : p ∈ (processArchive fuel world archivePath fs).created) :
    ∃ tr e, world archivePath = ArchiveFile.tar tr ∧ e ∈ tr.entries ∧
      accepted e.header = true ∧ e.createOk = true ∧
      p = Join [OutputDir, Base e.header.Name] := by
  cases hw : world archivePath with
  | openFails => simp [processArchive, hw] at hp
  | gzipFails => simp [processArchive, hw] at hp
  | tar tr =>
    rw [(processArchive_state fuel world archivePath tr fs hw).2, mem_created_iff] at hp
    obtain ⟨e, he, ha, hc, hpe⟩ := hp
    exact ⟨tr, e, rfl, List.mem_of_mem_take he, ha, hc, hpe.symm⟩

/-- The call on the file at `G.tar.gz`, which is not a tar stream, has not returned
after any number of iterations. -/
theorem garbage_not_returned (fuel : Nat) (fs : FS) :
    (processArchive fuel damagedWorld pathG fs).returned = none := by
  have hw : damagedWorld pathG = ArchiveFile.tar archiveGarbage := by decide
  rw [processArchive_tar _ _ _ _ _ hw]
  exact extractLoop_fault fuel [] fs []

/-- C2, amended. For every archive and every starting file system, at every moment of
a call of processArchive the paths it has created or overwritten are exactly the staging
paths `filepath.Join(OutputDir, filepath.Base(name))` of the accepted entries reached so
far whose `os.Create` succeeded; once every entry has been reached, whether or not the
call then returns, they are exactly those of all such entries of the archive. Every
other file is unchanged; with no accepted entry the file system is unchanged, nothing
is created, and the call returns nil when the archive opens, decompresses and its entry
sequence reaches the end of the archive. -/
theorem created_paths_frame (world : GoString → ArchiveFile) (archivePath : GoString)
    (fs : FS) (fuel : Nat) :
    (∀ p, p ∈ (processArchive fuel world archivePath fs).created →
      ∃ tr e, world archivePath = ArchiveFile.tar tr ∧ e ∈ tr.entries.take fuel ∧
        e ∈ tr.entries ∧ accepted e.header = true ∧ e.createOk = true ∧
        p = Join [OutputDir, Base e.header.Name]) ∧
    (∀ tr e, world archivePath = ArchiveFile.tar tr → e ∈ tr.entries.take fuel →
      accepted e.header = true → e.createOk = true →
      Join [OutputDir, Base e.header.Name]
        ∈ (processArchive fuel world archivePath fs).created) ∧
    (∀ tr e, world archivePath = ArchiveFile.tar tr →
      (tr.entries.length ≤ fuel ∨
        (processArchive fuel world archivePath fs).returned ≠ none) →
      e ∈ tr.entries → accepted e.header = true → e.createOk = true →
      Join [OutputDir, Base e.header.Name]
        ∈ (processArchive fuel world archivePath fs).created) ∧
    (∀ p, p ∉ (processArchive fuel world archivePath fs).created →
      (processArchive fuel world archivePath fs).files p = fs p) ∧
    ((∀ tr e, world archivePath = ArchiveFile.tar tr → e ∈ tr.entries →
        accepted e.header = false) →
      (processArchive fuel world archivePath fs).files = fs ∧
      (processArchive fuel world archivePath fs).created = [] ∧
      ∀ tr, world archivePath = ArchiveFile.tar tr → tr.ending = StreamEnd.eof →
        (processArchive (tr.entries.length + 1) world archivePath fs).returned
          = some none) := by
  cases hw : world archivePath with
  | openFails => simp [processArchive, hw]
  | gzipFails => simp [processArchive, hw]
  | tar tr =>
    obtain ⟨hfiles, hcreated⟩ := processArchive_state fuel world archivePath tr fs hw
    have hframe : ∀ p, p ∉ (processArchive fuel world archivePath fs).created →
        (processArchive fuel world archivePath fs).files p = fs p := by
      intro p hp
      rw [hcreated] at hp
      rw [hfiles]
      exact files_eq_of_not_created _ fs p hp
    have hsup : ∀ e, e ∈ tr.entries.take fuel → accepted e.header = true →
        e.createOk = true →
        Join [OutputDir, Base e.header.Name]
          ∈ (processArchive fuel world archivePath fs).created := by
      intro e he ha hc
      rw [hcreated]
      exact (mem_created_iff _ fs _).2 ⟨e, he, ha, hc, rfl⟩
    refine ⟨?_, ?_, ?_, hframe, ?_⟩
    · intro p hp
      rw [hcreated, mem_created_iff] at hp
      obtain ⟨e, he, ha, hc, hpe⟩ := hp
      exact ⟨tr, e, rfl, he, List.mem_of_mem_take he, ha, hc, hpe.symm⟩
    · intro tr1 e htr he ha hc
      cases htr
      exact hsup e he ha hc
    · intro tr1 e htr hall he ha hc
      cases htr
      rcases hall with hlen | hret
      · exact hsup e (by rw [List.take_of_length_le hlen]; exact he) ha hc
      · rw [processArchive_tar _ _ _ _ _ hw] at hret ⊢
        obtain ⟨_, hrun⟩ := extractLoop_returned fuel tr fs [] hret
        rw [hrun]
        exact (mem_created_iff tr.entries fs _).2 ⟨e, he, ha, hc, rfl⟩
    · intro hnone
      have hcr : (processArchive fuel world archivePath fs).created = [] := by
        rw [List.eq_nil_iff_forall_not_mem]
        intro p hp
        rw [hcreated, mem_created_iff] at hp
        obtain ⟨e, he, ha, _, _⟩ := hp
        have := hnone tr e rfl (List.mem_of_mem_take he)
        rw [ha] at this
        exact Bool.noConfusion this
      refine ⟨?_, hcr, ?_⟩
      · funext p
        exact hframe p (by rw [hcr]; simp)
      · intro tr1 htr hend
        cases htr
        rw [processArchive_tar _ _ _ _ _ hw]
        obtain ⟨es, en⟩ := tr
        simp only at hend
        subst hend
        have := extractLoop_eof 0 es fs []
        simp only [Nat.add_zero] at this
        rw [this]

/-- C2 on archive A of the batch, started with `b.txt` already in the staging
directory: the staging path of `a.json` is created, the staged `b.txt` keeps its
content although the archive has an entry `b.txt`, and no staging file appears for
`._c.json`. On the archive at `T.tar.gz`, whose stream faults after `a.json`, the
staging path of `a.json` is created although the call never returns. -/
theorem created_paths_frame_witness :
    Join [OutputDir, Base ['a', '.', 'j', 's', 'o', 'n']]
        ∈ (processArchive 4 batchWorld pathA stagedFS).created ∧
      (processArchive 4 batchWorld pathA stagedFS).files
          (stagingDir ++ Separator :: ['b', '.', 't', 'x', 't']) = some [1, 2, 3] ∧
      (processArchive 4 batchWorld pathA stagedFS).files
          (stagingDir ++ Separator :: ['.', '_', 'c', '.', 'j', 's', 'o', 'n']) = none ∧
      Join [OutputDir, Base ['a', '.', 'j', 's', 'o', 'n']]
        ∈ (processArchive 1 damagedWorld pathT emptyFS).created :=
  ⟨(created_paths_frame batchWorld pathA stagedFS 4).2.1 archiveA
      (regularEntry ['a', '.', 'j', 's', 'o', 'n'] bytesX1) (by decide) (by decide)
      (by decide) (by decide),
    ((created_paths_frame batchWorld pathA stagedFS 4).2.2.2.1
      (stagingDir ++ Separator :: ['b', '.', 't', 'x', 't']) (by decide)).trans (by decide),
    ((created_paths_frame batchWorld pathA stagedFS 4).2.2.2.1
      (stagingDir ++ Separator :: ['.', '_', 'c', '.', 'j', 's', 'o', 'n'])
      (by decide)).trans (by decide),
    (created_paths_frame damagedWorld pathT emptyFS 1).2.2.1 archiveTruncated
      ⟨⟨['a', '.', 'j', 's', 'o', 'n'], TypeReg⟩, bytesX1, true, CopyResult.failed 3⟩
      (by decide) (Or.inl (by decide)) (by decide) (by decide) (by decide)⟩

/-- C2 as stated fails: the only entry of `archiveBlocked` is accepted, the call returns
nil, and the staging path of the entry is not among the paths created or overwritten,
because `os.Create` failed on it. -/
theorem created_paths_not_all_accepted :
    ¬ (∀ p, p ∈ (processArchive 2 blockedWorld pathA emptyFS).created ↔
        ∃ e ∈ archiveBlocked.entries, accepted e.header = true ∧
          Join [OutputDir, Base e.header.Name] = p) := by
  intro h
  have := (h (Join [OutputDir, Base ['a', '.', 'j', 's', 'o', 'n']])).2
    ⟨⟨⟨['a', '.', 'j', 's', 'o', 'n'], TypeReg⟩, bytesX1, false, CopyResult.ok⟩,
      by decide, by decide, rfl⟩
  revert this
  decide

/-- C4. Whenever processArchive has returned, its error is non-nil exactly when
opening the archive or creating the gzip reader failed, whatever the outcome of the
entries; it does return in both of these cases, and also when the archive opens,
decompresses and its entry sequence reaches the end of the archive. -/
theorem error_iff_archive_level (world : GoString → ArchiveFile) (archivePath : GoString)
    (fs : FS) :
    (∀ fuel err, (processArchive fuel world archivePath fs).returned = some err →
      (err ≠ none ↔
        (world archivePath = ArchiveFile.openFails ∨
          world archivePath = ArchiveFile.gzipFails))) ∧
    ((world archivePath = ArchiveFile.openFails ∨
        world archivePath = ArchiveFile.gzipFails) →
      ∀ fuel, ∃ e, (processArchive fuel world archivePath fs).returned = some (some e)) ∧
    (∀ tr, world archivePath = ArchiveFile.tar tr → tr.ending = StreamEnd.eof →
      ∀ k, (processArchive (tr.entries.length + 1 + k) world archivePath fs).returned
        = some none) := by
  cases hw : world archivePath with
  | openFails =>
    refine ⟨?_, ?_, ?_⟩
    · intro fuel err h
      simp only [processArchive, hw] at h
      cases h
      simp
    · intro _ fuel
      exact ⟨ArchiveError.openArchive, by simp [processArchive, hw]⟩
    · intro tr h
      cases h
  | gzipFails =>
    refine ⟨?_, ?_, ?_⟩
    · intro fuel err h
      simp only [processArchive, hw] at h
      cases h
      simp
    · intro _ fuel
      exact ⟨ArchiveError.gzipReader, by simp [processArchive, hw]⟩
    · intro tr h
      cases h
  | tar tr =>
    refine ⟨?_, ?_, ?_⟩
    · intro fuel err h
      rw [processArchive_tar _ _ _ _ _ hw] at h
      have hne : (extractLoop fuel tr fs []).returned ≠ none := by simp [h]
      obtain ⟨_, hrun⟩ := extractLoop_returned fuel tr fs [] hne
      rw [hrun] at h
      simp only [Option.some.injEq] at h
      subst h
      simp
    · intro h
      simp at h
    · intro tr1 htr hend k
      cases htr
      rw [processArchive_tar _ _ _ _ _ hw]
      obtain ⟨es, en⟩ := tr
      simp only at hend
      subst hend
      rw [extractLoop_eof k es fs []]

/-- C4 on the batch: the file at `B.tar.gz` is not gzip data, and the call on it returns
the gzip-reader error. -/
theorem error_iff_archive_level_witness :
    (processArchive 1 batchWorld pathB emptyFS).returned
        = some (some ArchiveError.gzipReader) ∧
      (some ArchiveError.gzipReader ≠ none ↔
        (batchWorld pathB = ArchiveFile.openFails ∨
          batchWorld pathB = ArchiveFile.gzipFails)) :=
  ⟨by decide,
    (error_iff_archive_level batchWorld pathB emptyFS).1 1 (some ArchiveError.gzipReader)
      (by decide)⟩

/-- C10. For an archive that opens and decompresses, when the output file of every
accepted entry is created and its bytes are copied: the call returns when the entry
sequence reaches the end of the archive, and whenever a call and a second call on the
state it left have both returned, the second leaves the file system as the first left
it. -/
theorem processArchive_idempotent (world : GoString → ArchiveFile)
    (archivePath : GoString) (tr : TarReader) (fs : FS)
    (hopen : world archivePath = ArchiveFile.tar tr)
    (hok : ∀ e ∈ tr.entries, accepted e.header = true →
      e.createOk = true ∧ e.copy = CopyResult.ok) :
    (tr.ending = StreamEnd.eof →
      ∀ fs1, (processArchive (tr.entries.length + 1) world archivePath fs1).returned
        = some none) ∧
    ∀ fuel1 fuel2,
      (processArchive fuel1 world archivePath fs).returned ≠ none →
      (processArchive fuel2 world archivePath
          (processArchive fuel1 world archivePath fs).files).returned ≠ none →
      (processArchive fuel2 world archivePath
          (processArchive fuel1 world archivePath fs).files).files
        = (processArchive fuel1 world archivePath fs).files := by
  constructor
  · intro hend fs1
    rw [processArchive_tar _ _ _ _ _ hopen]
    obtain ⟨es, en⟩ := tr
    simp only at hend
    subst hend
    have := extractLoop_eof 0 es fs1 []
    simp only [Nat.add_zero] at this
    rw [this]
  · intro fuel1 fuel2 h1 h2
    rw [processArchive_tar _ _ _ _ _ hopen] at h1
    obtain ⟨_, hrun1⟩ := extractLoop_returned fuel1 tr fs [] h1
    have hf1 : (processArchive fuel1 world archivePath fs).files
        = (tr.entries.foldl stepEntry (fs, [])).1 := by
      rw [processArchive_tar _ _ _ _ _ hopen, hrun1]
    rw [hf1] at h2 ⊢
    rw [processArchive_tar _ _ _ _ _ hopen] at h2 ⊢
    obtain ⟨_, hrun2⟩ := extractLoop_returned fuel2 tr _ [] h2
    rw [hrun2]
    funext p
    simp only
    rw [foldl_stepEntry_files, foldl_stepEntry_files]
    cases lastWrite tr.entries p <;> rfl

/-- C10 on archive C of the batch, where two entries share the base name `a.json`. -/
theorem processArchive_idempotent_witness :
    (processArchive 4 batchWorld pathC (processArchive 4 batchWorld pathC emptyFS).files).files
      = (processArchive 4 batchWorld pathC emptyFS).files :=
  (processArchive_idempotent batchWorld pathC archiveC emptyFS (by decide) (by decide)).2
    4 4 (by decide) (by decide)

/-- C8. The base name of every accepted header is a single path element: not empty,
without separator, neither `.` nor `..`; the path written for it,
`filepath.Join(OutputDir, base)`, is that element directly under the cleaned staging
directory; and every path a call of processArchive has created, at any moment, is such
a path of an accepted entry of the archive. -/
theorem staging_is_flat :
    (∀ h : Header, accepted h = true →
      Base h.Name ≠ [] ∧ Separator ∉ Base h.Name ∧ Base h.Name ≠ ['.'] ∧
        Base h.Name ≠ ['.', '.'] ∧
        Join [OutputDir, Base h.Name] = Clean OutputDir ++ Separator :: Base h.Name) ∧
    (∀ (world : GoString → ArchiveFile) (archivePath : GoString) (fs : FS) (fuel : Nat) p,
      p ∈ (processArchive fuel world archivePath fs).created →
        ∃ h : Header, accepted h = true ∧ p = Join [OutputDir, Base h.Name]) := by
  constructor
  · intro h hacc
    obtain ⟨h1, h2, h3, h4⟩ := base_proper h hacc
    refine ⟨h1, h2, h3, h4, ?_⟩
    rw [clean_outputDir]
    exact stagingPath_eq h hacc
  · intro world archivePath fs fuel p hp
    obtain ⟨_, e, _, _, ha, _, hpe⟩ := created_mem_accepted world archivePath fs fuel p hp
    exact ⟨e.header, ha, hpe⟩

/-- C8 on a header name with a leading separator, a `..` element and directory
elements: the file is written directly under the staging directory. -/
theorem staging_is_flat_witness :
    Join [OutputDir, Base ['/', '.', '.', '/', 'y', '/', 'a', '.', 'j', 's', 'o', 'n']]
      = Clean OutputDir ++ Separator :: ['a', '.', 'j', 's', 'o', 'n'] :=
  (staging_is_flat.1
    ⟨['/', '.', '.', '/', 'y', '/', 'a', '.', 'j', 's', 'o', 'n'], TypeReg⟩
    (by decide)).2.2.2.2

/-! ## The entry loop on a stream that ends in an error -/

/-- C5 fails on the code. The file at `G.tar.gz` decompresses but is not a tar stream:
`tarReader.Next()` returns an error other than `io.EOF`, the loop logs it and continues,
the next call returns the same error, and processArchive has not returned after any
number of iterations. -/
theorem unreadable_container_never_returns (fuel : Nat) (fs : FS) :
    (processArchive fuel damagedWorld pathG fs).returned = none :=
  garbage_not_returned fuel fs

/-- C6 fails on the code. The archive at `T.tar.gz` is cut off inside its accepted entry
`a.json`: the copy fails after three bytes, the loop continues, `tarReader.Next()` then
returns the read error on every call, and processArchive never returns nil; the staging
file is left with the three bytes copied. -/
theorem interrupted_copy_never_returns (fuel : Nat) (fs : FS) :
    (processArchive (fuel + 1) damagedWorld pathT fs).returned = none ∧
      (processArchive (fuel + 1) damagedWorld pathT fs).files
          (Join [OutputDir, Base ['a', '.', 'j', 's', 'o', 'n']]) = some [123, 34, 120] := by
  have hw : damagedWorld pathT = ArchiveFile.tar archiveTruncated := by decide
  constructor
  · rw [processArchive_tar _ _ _ _ _ hw]
    exact extractLoop_fault (fuel + 1) _ fs []
  · rw [(processArchive_state (fuel + 1) damagedWorld pathT archiveTruncated fs hw).1]
    simp only [archiveTruncated, List.take_succ_cons, List.take_nil, List.foldl_cons,
      List.foldl_nil]
    have hacc : accepted (⟨['a', '.', 'j', 's', 'o', 'n'], TypeReg⟩ : Header) = true := by
      decide
    simp [stepEntry, hacc, stagingPath, copied, bytesX1]

/-- The entry loop on a stream that reaches `io.EOF`, whatever the outcomes of the
entries: it returns nil, and an accepted entry whose own create and copy succeed has its
full content at its staging path unless a later entry writes that path again. Failed
creations and failed copies of other entries do not abort the loop. -/
theorem entry_failures_do_not_abort (pre post : List Entry) (e : Entry) (fs : FS)
    (hacc : accepted e.header = true) (hc : e.createOk = true)
    (hcopy : e.copy = CopyResult.ok)
    (hpost : ∀ x ∈ post, accepted x.header = true → x.createOk = true →
      stagingPath x.header ≠ stagingPath e.header) :
    (extractLoop ((pre ++ e :: post).length + 1) ⟨pre ++ e :: post, StreamEnd.eof⟩ fs
        []).returned = some none ∧
      (extractLoop ((pre ++ e :: post).length + 1) ⟨pre ++ e :: post, StreamEnd.eof⟩ fs
        []).files (stagingPath e.header) = some e.content := by
  have hrun := extractLoop_eof 0 (pre ++ e :: post) fs []
  simp only [Nat.add_zero] at hrun
  rw [hrun]
  refine ⟨rfl, ?_⟩
  simp only
  rw [foldl_stepEntry_files]
  have hlast : lastWrite (pre ++ e :: post) (stagingPath e.header) = some e := by
    unfold lastWrite
    rw [List.filter_append, List.filter_cons, if_pos (by simp [hacc, hc])]
    have hnil : post.filter (fun x => accepted x.header && x.createOk &&
        decide (stagingPath x.header = stagingPath e.header)) = [] := by
      rw [List.filter_eq_nil_iff]
      intro x hx
      by_cases hax : accepted x.header = true
      · by_cases hcx : x.createOk = true
        · simp [hax, hcx, hpost x hx hax hcx]
        · simp [hcx]
      · simp [hax]
    rw [hnil, List.getLast?_append_cons, List.getLast?_cons]
    simp
  rw [hlast]
  simp [copied, hcopy]

/-- C7 fails on the code. A worker that is delivered `G.tar.gz` and then `A.tar.gz`
passes the first to processArchive, the call never returns, and the second item is
never passed to processArchive; the worker does not leave its loop. -/
theorem worker_stuck_on_unreadable_container (fuel : Nat) (fs : FS) :
    (worker fuel damagedWorld [pathG, pathA] fs).invoked = [pathG] ∧
      (worker fuel damagedWorld [pathG, pathA] fs).exited = false := by
  have h := garbage_not_returned fuel fs
  simp [worker, h]

/-- The loop of `worker` when every call of processArchive returns: every item is
passed to processArchive, once and in delivery order, whatever the errors returned, and
the worker leaves its loop. -/
theorem worker_all_invoked (fuel : Nat) (world : GoString → ArchiveFile)
    (items : List GoString) (fs : FS)
    (hret : ∀ a ∈ items, ∀ fs1, (processArchive fuel world a fs1).returned ≠ none) :
    (worker fuel world items fs).invoked = items ∧
      (worker fuel world items fs).exited = true := by
  induction items generalizing fs with
  | nil => simp [worker]
  | cons a rest ih =>
    have ha := hret a (by simp) fs
    have ih1 := ih (processArchive fuel world a fs).files
      (fun b hb fs1 => hret b (by simp [hb]) fs1)
    rw [worker]
    cases hr : (processArchive fuel world a fs).returned with
    | none => exact absurd hr ha
    | some err =>
      cases err with
      | none => simp [ih1]
      | some e => simp [ih1]

/-! ## The input validation of `readFiles` -/

/-- C3 as stated fails: with neither a directory nor a file, `readFiles` has written a
log line, opened the log file and written to it by the time it ends in the fatal
configuration error, and when the log file cannot be opened it ends in the fatal
log-file error instead. -/
theorem validation_follows_log_io :
    (readFiles ⟨true, true, fun _ => none⟩ [] []).outcome = Outcome.fatal Fatal.invalidInput ∧
    (readFiles ⟨true, true, fun _ => none⟩ [] []).events
      = [Event.stderrLog, Event.openLogFile, Event.fileLog, Event.fileLog] ∧
    (readFiles ⟨false, true, fun _ => none⟩ [] []).outcome = Outcome.fatal Fatal.logFile := by
  decide

/-- C3, amended. When both inputs are empty or both are non-empty, `readFiles` ends in
a fatal error, the configuration error when the log file opens and the log-file error
otherwise, having done nothing but write log lines and open the log file: the staging
directory has not been created and the worker pool, the only caller of processArchive,
has not been started. When exactly one input is non-empty the run does not end in the
configuration error. -/
theorem invalid_input_no_staging_io (env : Env) (dir file : GoString) :
    (((dir = [] ∧ file = []) ∨ (dir ≠ [] ∧ file ≠ [])) →
      (env.openLogFileOk = true →
        (readFiles env dir file).outcome = Outcome.fatal Fatal.invalidInput) ∧
      (env.openLogFileOk = false →
        (readFiles env dir file).outcome = Outcome.fatal Fatal.logFile) ∧
      (∀ ev ∈ (readFiles env dir file).events,
        ev = Event.stderrLog ∨ ev = Event.openLogFile ∨ ev = Event.fileLog) ∧
      Event.mkdirAll OutputDir ∉ (readFiles env dir file).events ∧
      (∀ archives, (readFiles env dir file).outcome ≠ Outcome.pool archives)) ∧
    (((dir = [] ∧ file ≠ []) ∨ (dir ≠ [] ∧ file = [])) →
      (readFiles env dir file).outcome ≠ Outcome.fatal Fatal.invalidInput) := by
  constructor
  · intro hbad
    cases hlog : env.openLogFileOk with
    | false => simp [readFiles, hlog]
    | true => simp [readFiles, hlog, hbad]
  · intro hone
    have hgood : ¬ ((dir = [] ∧ file = []) ∨ (dir ≠ [] ∧ file ≠ [])) := by
      rcases hone with ⟨h1, h2⟩ | ⟨h1, h2⟩ <;> simp [h1, h2]
    cases hlog : env.openLogFileOk with
    | false => simp [readFiles, hlog]
    | true =>
      cases hmk : env.mkdirAllOk with
      | false => simp [readFiles, hlog, hmk, hgood]
      | true =>
        rcases hone with ⟨h1, h2⟩ | ⟨h1, h2⟩
        · simp [readFiles, hlog, hmk, h1, h2]
        · cases hg : env.glob (Join [dir, tarGzPattern]) with
          | none => simp [readFiles, hlog, hmk, h1, h2, hg]
          | some archives =>
            by_cases hz : archives.length = 0 <;> simp [readFiles, hlog, hmk, h1, h2, hg, hz]

/-- C3 with both a directory and a file given and a log file that opens. -/
theorem invalid_input_no_staging_io_witness :
    (readFiles ⟨true, true, fun _ => some [pathA]⟩ ['d'] pathA).outcome
      = Outcome.fatal Fatal.invalidInput :=
  ((invalid_input_no_staging_io ⟨true, true, fun _ => some [pathA]⟩ ['d'] pathA).1
    (Or.inr ⟨by decide, by decide⟩)).1 rfl

end Ishinobu2elk
